import Mathlib

/-!
# Verification of the spartan-gold-wallets core

Shallow embedding of the three source files of the repository:

* `src/mnemonic.js`   — the `Mnemonic` class (entropy/word-sequence codec, checksum);
* `src/transaction.js` — the `Transaction` class (multi-input transactions);
* `src/client.js`     — the `Client` class (ledger view, wallet, fund recovery).

Conventions used throughout the embedding:

* JS strings of `'0'`/`'1'` characters (the bit strings the mnemonic code
  builds) are modelled as `List Bool` (`true` = `'1'`).
* JS `Buffer`s are modelled as `List Nat` with every element `< 256`.
* A phrase (a JS string of words) is modelled as `List Char`; the wordlist
  (the external bip39 English list) is a parameter `wl : List (List Char)`.
* External cryptographic primitives (`utils.hash`, `utils.sign`,
  `utils.verifySignature`, `utils.addressMatchesKey`, `crypto.createHash`,
  the RSA key stream) are an external boundary of the program and are
  modelled as function parameters; addresses, keys and signatures are
  modelled as opaque `Nat` tokens.
* A JS function that can throw returns an `Option`; `none` is the thrown
  exception.
-/

namespace Mnemonic

/-- `NUM_BYTES` from `src/mnemonic.js`. -/
def NUM_BYTES : Nat := 32

/-- `Mnemonic.convertByteToBinString` (`src/mnemonic.js`): tests the eight
bits of a byte from `0x80` down to `0x01`, producing a bit string
(modelled as a `List Bool`, most significant bit first). -/
def convertByteToBinString (byte : Nat) : List Bool :=
  [byte &&& 0x80 != 0, byte &&& 0x40 != 0, byte &&& 0x20 != 0, byte &&& 0x10 != 0,
   byte &&& 0x08 != 0, byte &&& 0x04 != 0, byte &&& 0x02 != 0, byte &&& 0x01 != 0]

/-- `Mnemonic.convertBinStringToByte` (`src/mnemonic.js`): `parseInt(bs, 2)`.
`parseInt` of the empty string is `NaN` (which makes the subsequent
`writeUInt8` throw), modelled as `none`; on a nonempty string of binary
digits it is the base-2 value. -/
def convertBinStringToByte (bs : List Bool) : Option Nat :=
  match bs with
  | [] => none
  | _ => some (bs.foldl (fun acc b => 2 * acc + (if b then 1 else 0)) 0)

/-- The accumulation loop inside `Mnemonic.split`: walks the bit string with
`bitPosVal` starting at 1024 and halving at each step, adding `bitPosVal`
for each 1-bit.  (The source only ever runs it on 11-bit groups, for which
the successive positions are 1024, 512, …, 1.)  -/
def bitsVal : List Bool → Nat → Nat
  | [], _ => 0
  | b :: rest, pos => (if b then pos else 0) + bitsVal rest (pos / 2)

/-- Value of one 11-bit group, as computed by the `elevenBits.map` body in
`Mnemonic.split`. -/
def elevenBitVal (bs : List Bool) : Nat := bitsVal bs 1024

/-- The grouping performed by `bitString.match(/.{11}/g)` in
`Mnemonic.split`: consecutive groups of 11 characters from the start, any
shorter remainder dropped.  (On a 33-byte buffer there are exactly 24
groups and no remainder.  When the bit string is shorter than 11 the JS
`match` returns `null` and the subsequent `.map` would throw; that case is
modelled as the empty list and is never reached by the claims.) -/
def chunks11Go : Nat → List Bool → List (List Bool)
  | 0, _ => []
  | fuel + 1, l =>
    if 11 ≤ l.length then l.take 11 :: chunks11Go fuel (l.drop 11) else []

/-- The grouping of `bitString.match(/.{11}/g)`; since each step consumes
eleven characters, `l.length` steps are always enough fuel. -/
def chunks11 (l : List Bool) : List (List Bool) := chunks11Go l.length l

/-- `Mnemonic.split` (`src/mnemonic.js`): converts a buffer to its bit
string, groups it into 11-bit groups, and maps each group to its value. -/
def split (seq : List Nat) : List Nat :=
  (chunks11 (seq.flatMap convertByteToBinString)).map elevenBitVal

/-- The body of the `while (bitPosVal >= 1)` loop of
`Mnemonic.translate11bit`, iterated over the successive values of
`bitPosVal` (1024, 512, …, 1). -/
def translate11bitGo : Nat → List Nat → List Bool
  | _, [] => []
  | n, pos :: rest =>
    if pos ≤ n then true :: translate11bitGo (n - pos) rest
    else false :: translate11bitGo n rest

/-- `Mnemonic.translate11bit` (`src/mnemonic.js`): the 11-character binary
string of an 11-bit number, most significant bit first. -/
def translate11bit (n : Nat) : List Bool :=
  translate11bitGo n [1024, 512, 256, 128, 64, 32, 16, 8, 4, 2, 1]

/-- The successive values taken by `bitPosVal` in `translate11bit` and in
the 11-bit-value loop of `split`, in closed form: `[2^k, …, 2, 1]`.  Used
only to reason about those loops (`powList 10` is the literal list in
`translate11bit`). -/
def powList : Nat → List Nat
  | 0 => [1]
  | k + 1 => 2 ^ (k + 1) :: powList k

/-- `Mnemonic.words` (`src/mnemonic.js`): maps each 11-bit group of the
sequence to the wordlist entry at that index and joins the words with
single spaces (the source builds `" " + word` per word and then drops the
leading character with `substring(1)`, which is exactly
`intercalate [' ']`).  An index beyond the end of the wordlist would read
`undefined` in JS; it is modelled with default `[]` and never occurs, the
groups being 11-bit values and the wordlist having 2048 entries. -/
def words (wl : List (List Char)) (seq : List Nat) : List Char :=
  List.intercalate [' '] ((split seq).map (fun v => wl.getD v []))

/-- The hexadecimal digit characters produced by `Buffer.toString('hex')`
(lowercase). -/
def hexDigitChar (n : Nat) : Char :=
  if n < 10 then Char.ofNat (48 + n) else Char.ofNat (87 + n)

/-- Two hex characters of one byte, as in `Buffer.toString('hex')`. -/
def byteToHex (b : Nat) : List Char := [hexDigitChar (b / 16), hexDigitChar (b % 16)]

/-- The buffer that `Mnemonic.calcChecksum` (`src/mnemonic.js`) feeds to the
hash: `this.seq.toString('hex').slice(0, NUM_BYTES)`.  Note that the slice
takes the first `NUM_BYTES = 32` hexadecimal *characters*, i.e. only the
first 16 *bytes* of the sequence — not the first 32 bytes that the
adjacent source comment ("Dropping the last byte") intends. -/
def checksumInput (seq : List Nat) : List Char :=
  (seq.flatMap byteToHex).take NUM_BYTES

/-- `Mnemonic.calcChecksum` (`src/mnemonic.js`): first byte of the hash of
`checksumInput`.  The hash (`crypto.createHash('sha256')`, first digest
byte) is an external primitive, modelled by the parameter `h`. -/
def calcChecksum (h : List Char → Nat) (seq : List Nat) : Nat :=
  h (checksumInput seq)

/-- The `Mnemonic` constructor (`src/mnemonic.js`): fills the 33-byte
sequence with randomness (the random buffer is the parameter `r`) and then
writes `calcChecksum()` of that buffer into byte `NUM_BYTES` (index 32). -/
def construct (h : List Char → Nat) (r : List Nat) : List Nat :=
  r.set NUM_BYTES (calcChecksum h r)

/-- `Mnemonic.isValid` (`src/mnemonic.js`): recomputes the checksum and
compares it with byte `NUM_BYTES` of the sequence (`readUInt8`, modelled
with `getD`; the claims only use 33-byte sequences, where it is in
range). -/
def isValid (h : List Char → Nat) (seq : List Nat) : Bool :=
  calcChecksum h seq == seq.getD NUM_BYTES 0

/-- The inner `for(let j in this.wordlist)` loop of
`Mnemonic.calculateSequence`: scans the whole wordlist and, for every
index `j` whose word equals the given word, appends `translate11bit(j)`.
A word absent from the wordlist contributes nothing. -/
def scanWordlist (wl : List (List Char)) (w : List Char) : List Bool :=
  wl.enum.flatMap (fun p => if w = p.2 then translate11bit p.1 else [])

/-- The `while (position !== NUM_BYTES + 1)` loop of
`Mnemonic.calculateSequence`: writes `k` bytes, each taken by
`parseInt(binString.substring(0, 8), 2)` followed by
`binString = binString.substring(8)`.  When the remaining bit string is
empty, `parseInt` yields `NaN` and `writeUInt8` throws (`none`). -/
def rebuildBytes : Nat → List Bool → Option (List Nat)
  | 0, _ => some []
  | k + 1, bits =>
    match convertBinStringToByte (bits.take 8) with
    | none => none
    | some b =>
      match rebuildBytes k (bits.drop 8) with
      | none => none
      | some rest => some (b :: rest)

/-- `Mnemonic.calculateSequence` (`src/mnemonic.js`): splits the phrase on
spaces, concatenates the 11-bit strings of the wordlist indices of the
words found (absent words contribute nothing), and rebuilds
`NUM_BYTES + 1 = 33` bytes from the bit accumulator.  The source stores
the result in `this.seq`; the model returns it (`none` = an exception was
thrown while rebuilding). -/
def calculateSequence (wl : List (List Char)) (phrase : List Char) : Option (List Nat) :=
  let wordArray := phrase.splitOn ' '
  let binString := wordArray.flatMap (scanWordlist wl)
  rebuildBytes (NUM_BYTES + 1) binString

end Mnemonic

/-! ## `src/transaction.js` -/

/-- One output of a transaction: `{amount, address}`.  Addresses are opaque
tokens produced by the external `utils.calcAddress`, modelled as `Nat`. -/
structure Output where
  amount : Nat
  address : Nat
deriving DecidableEq

/-- The `Transaction` class (`src/transaction.js`).  `pubKey` entries and
signatures are opaque values of the external signing primitives, modelled
as `Nat`; the opaque auxiliary `data` object is likewise modelled as an
opaque `Nat`. -/
structure Transaction where
  «from» : List Nat
  nonce : Nat
  pubKey : List Nat
  sig : List Nat
  outputs : List Output
  fee : Nat
  data : Nat
deriving DecidableEq

/-- The object serialized into the transaction id (`get id()` in
`src/transaction.js`): `TX_CONST + JSON.stringify({from, nonce, pubKey,
outputs, fee, data})`.  The domain tag and the fixed key order make the
serialized text a function of exactly these six fields, so the payload is
modelled as the tuple of those fields; `sig` does not appear. -/
structure IdPayload where
  «from» : List Nat
  nonce : Nat
  pubKey : List Nat
  outputs : List Output
  fee : Nat
  data : Nat
deriving DecidableEq

/-- The hash input of `get id()`. -/
def txIdPayload (tx : Transaction) : IdPayload :=
  ⟨tx.«from», tx.nonce, tx.pubKey, tx.outputs, tx.fee, tx.data⟩

/-- `get id()` (`src/transaction.js`): `utils.hash` of the domain-tagged
payload.  `utils.hash` is an external primitive, modelled by `hashTx`. -/
def Transaction.id (hashTx : IdPayload → Nat) (tx : Transaction) : Nat :=
  hashTx (txIdPayload tx)

/-- `Transaction.sign` (`src/transaction.js`): pushes
`utils.sign(privKey, this.id)` onto `this.sig`.  `utils.sign` is external,
modelled by `sg`. -/
def Transaction.sign (sg : Nat → Nat → Nat) (hashTx : IdPayload → Nat)
    (privKey : Nat) (tx : Transaction) : Transaction :=
  { tx with sig := tx.sig ++ [sg privKey (Transaction.id hashTx tx)] }

/-- `Transaction.validSignature` (`src/transaction.js`).  The external
primitives are parameters: `amk` is `utils.addressMatchesKey(addr, key)`
and `vs` is `utils.verifySignature(pubKey, id, sig)`; out-of-range list
reads (`pubKey[0]`, `sig[0]` on empty lists) are JS `undefined`, modelled
by `Option`.

The source's `for` loop returns in every branch of its first iteration —
including the final `return true` placed *inside* the loop body — so only
index 0 is ever examined, no matter how long `from` is.  When `from` is
empty the loop body never runs and the function returns `undefined`
(falsy), modelled as `false`. -/
def Transaction.validSignature (amk : Nat → Option Nat → Bool)
    (vs : Option Nat → Nat → Option Nat → Bool) (hashTx : IdPayload → Nat)
    (tx : Transaction) : Bool :=
  match tx.«from» with
  | [] => false
  | a0 :: _ =>
    if ¬ amk a0 tx.pubKey.head? then false
    else if tx.sig.head? = none then false
    else if ¬ vs tx.pubKey.head? (Transaction.id hashTx tx) tx.sig.head? then false
    else true

/-- `Transaction.totalOutput` (`src/transaction.js`): fee plus the sum of
the output amounts (a `reduce` starting from `this.fee`). -/
def Transaction.totalOutput (tx : Transaction) : Nat :=
  tx.outputs.foldl (fun totalValue o => totalValue + o.amount) tx.fee

/-! ## `src/client.js`

The `Block` class lives in `src/blockchain.js`/`src/block.js`, which are
not part of this repository snapshot; the spec (§3, §6) specifies it as an
external contract only.  A block is therefore modelled as a record of the
contract's observable data, and the behavioural members
(`rerun(parent)`, `contains(tx)`) together with the configuration constant
`Blockchain.CONFIRMED_DEPTH` are parameters, bundled in `BlockExt`. -/

/-- External `Block` contract (spec §3/§6): `id`, `prevBlockHash`,
`chainLength`, `isGenesisBlock()`, `hasValidProof()`. -/
structure Block where
  id : Nat
  prevBlockHash : Nat
  chainLength : Nat
  genesis : Bool
  validProof : Bool
deriving DecidableEq

/-- External behaviour consumed by `Client.receiveBlock`:
`block.rerun(parent)` (its success boolean), `block.contains(tx)`, and
`Blockchain.CONFIRMED_DEPTH`. -/
structure BlockExt where
  rerun : Block → Block → Bool
  containsTx : Block → Transaction → Bool
  confirmedDepth : Nat

/-- A keypair drawn from the deterministic key stream
(`generateKeypairFromMnemonic` in `src/client.js`); `public`/`private` are
opaque PEM strings, modelled as `Nat`. -/
structure KeyPair where
  «public» : Nat
  «private» : Nat
deriving DecidableEq

/-- A wallet entry `{ address, keyPair }` (`src/client.js`). -/
structure Slot where
  address : Nat
  keyPair : KeyPair
deriving DecidableEq

/-- A message handed to `this.net` (`src/client.js`): either the
missing-block request `{from, missing}` broadcast on `MISSING_BLOCK`, or a
transaction broadcast on `POST_TRANSACTION`. -/
inductive Msg where
  | missingBlock (sender missing : Nat)
  | postTx (tx : Transaction)
deriving DecidableEq

/-- `Map.set(k, v)` on a JS `Map`, modelled on an association list kept in
insertion order: replace in place if the key is present, else append. -/
def mapSet {β : Type} (k : Nat) (v : β) : List (Nat × β) → List (Nat × β)
  | [] => [(k, v)]
  | (k', v') :: rest => if k = k' then (k, v) :: rest else (k', v') :: mapSet k v rest

/-- `Map.delete(k)` on a JS `Map`. -/
def mapDelete {β : Type} (k : Nat) : List (Nat × β) → List (Nat × β)
  | [] => []
  | (k', v') :: rest => if k = k' then rest else (k', v') :: mapDelete k rest

/-- The mutable state of a `Client` (`src/client.js`) that the embedded
operations read or write: the block store, the orphan buffer, the chain
head (`lastBlock`) and confirmed head (`lastConfirmedBlock`), the pending
outgoing transaction map, the wallet slot sequence, the current
keypair/address, the position already consumed from the deterministic key
stream (`keyCtr`, modelling the advancing PRNG), and the messages handed
to `this.net` (`outbox`). -/
structure ClientState where
  blocks : List (Nat × Block)
  pendingBlocks : List (Nat × List Block)
  lastBlock : Block
  lastConfirmedBlock : Block
  pendingOutgoing : List (Nat × Transaction)
  wallet : List Slot
  keyPair : KeyPair
  address : Nat
  keyCtr : Nat
  outbox : List Msg
deriving DecidableEq

/-- The `while (block.chainLength > confirmedBlockHeight)` walk of
`Client.setLastConfirmed` (`src/client.js`).  The JS loop is unbounded;
`chainLength` strictly decreases on every well-formed chain, so
`chainLength + 1` steps of fuel always suffice there.  A missing parent
would make JS throw (`undefined.chainLength`); the model stops on the
current block, a case no claim exercises. -/
def walkBack (blocks : List (Nat × Block)) : Nat → Block → Nat → Block
  | 0, blk, _ => blk
  | fuel + 1, blk, target =>
    if target < blk.chainLength then
      match blocks.lookup blk.prevBlockHash with
      | some p => walkBack blocks fuel p target
      | none => blk
    else blk

/-- `Client.setLastConfirmed` (`src/client.js`): walk back
`CONFIRMED_DEPTH` blocks from `lastBlock` (clamped at height 0 — the JS
`if (confirmedBlockHeight < 0)` clamp is `Nat` truncated subtraction
here), store the result in `lastConfirmedBlock`, and delete from
`pendingOutgoingTransactions` every transaction the new confirmed block
contains. -/
def setLastConfirmed (ext : BlockExt) (s : ClientState) : ClientState :=
  let target := s.lastBlock.chainLength - ext.confirmedDepth
  let confirmed := walkBack s.blocks (s.lastBlock.chainLength + 1) s.lastBlock target
  { s with
    lastConfirmedBlock := confirmed,
    pendingOutgoing := s.pendingOutgoing.filter (fun p => ¬ ext.containsTx confirmed p.2) }

/-- `Client.receiveBlock` (`src/client.js`).  Deserialization is the
identity here (blocks are values).  The steps, in source order: ignore a
block whose id is already stored; reject a non-genesis block without a
valid proof; buffer an orphan under `pendingBlocks[prevBlockHash]`
(broadcasting a missing-block request only for the first orphan of that
parent — the orphan sets are JS `Set`s, modelled as lists with
membership-checked insertion); re-run a non-genesis block against its
parent and reject on failure; store the block; adopt it as `lastBlock`
only when its `chainLength` is strictly greater, recomputing the
confirmed head; finally drain `pendingBlocks[block.id]` and recurse on
each previously stuck block.  The JS recursion is unbounded, hence the
fuel; every non-recursive path ignores the fuel. -/
def receiveBlock (ext : BlockExt) : Nat → ClientState → Block → ClientState × Option Block
  | 0, s, _ => (s, none)
  | fuel + 1, s, b =>
    if (s.blocks.lookup b.id).isSome then (s, none)
    else if ¬ b.validProof ∧ ¬ b.genesis then (s, none)
    else
      let prev? := s.blocks.lookup b.prevBlockHash
      if prev?.isNone ∧ ¬ b.genesis then
        let stuck? := s.pendingBlocks.lookup b.prevBlockHash
        let s1 :=
          if stuck?.isNone then
            { s with outbox := s.outbox ++ [Msg.missingBlock s.address b.prevBlockHash] }
          else s
        let stuck' :=
          if b ∈ stuck?.getD [] then stuck?.getD [] else stuck?.getD [] ++ [b]
        ({ s1 with pendingBlocks := mapSet b.prevBlockHash stuck' s1.pendingBlocks }, none)
      else if ¬ b.genesis ∧ ¬ ext.rerun b (prev?.getD b) then (s, none)
      else
        let s2 := { s with blocks := mapSet b.id b s.blocks }
        let s3 :=
          if s2.lastBlock.chainLength < b.chainLength then
            setLastConfirmed ext { s2 with lastBlock := b }
          else s2
        let unstuck := (s3.pendingBlocks.lookup b.id).getD []
        let s4 := { s3 with pendingBlocks := mapDelete b.id s3.pendingBlocks }
        let s5 := unstuck.foldl (fun st ub => (receiveBlock ext fuel st ub).1) s4
        (s5, some b)

/-- `Client.getConfirmedBalance` (`src/client.js`): sums
`lastConfirmedBlock.balanceOf(address)` over the wallet slots.  The
confirmed block's balance table (`balanceOf`, an external `Block` member)
is the parameter `bal`. -/
def getConfirmedBalance (bal : Nat → Nat) (wallet : List Slot) : Nat :=
  wallet.foldl (fun totalAmount slot => totalAmount + bal slot.address) 0

/-- The UTXO-gathering `while (total > gathered)` loop of
`Client.postTransaction` (`src/client.js`): repeatedly `shift`s the oldest
wallet slot, adds its confirmed balance to `gathered`, and collects its
address, public key and private key (in wallet order).  Returns the
remaining wallet, the gathered amount, the three collected lists, and
whether the loop crashed: `shift()` on an empty wallet yields `undefined`
and the subsequent `nextKey["address"]` throws in JS. -/
def gatherLoop (bal : Nat → Nat) (total : Nat) :
    List Slot → Nat → List Slot × Nat × List Nat × List Nat × List Nat × Bool
  | [], gathered =>
    if gathered < total then ([], gathered, [], [], [], true)
    else ([], gathered, [], [], [], false)
  | k :: rest, gathered =>
    if gathered < total then
      let r := gatherLoop bal total rest (gathered + bal k.address)
      (r.1, r.2.1, k.address :: r.2.2.1, k.keyPair.«public» :: r.2.2.2.1,
       k.keyPair.«private» :: r.2.2.2.2.1, r.2.2.2.2.2)
    else (k :: rest, gathered, [], [], [], false)

/-- `Client.generateAddress` (`src/client.js`): draw the next keypair from
the deterministic stream (`ks` is the stream, `keyCtr` the position the
PRNG has advanced to), compute `utils.calcAddress` (external, parameter
`calcAddr`) of its public key, set `this.keyPair`/`this.address`, push the
slot onto the wallet, and return the address. -/
def generateAddress (ks : Nat → KeyPair) (calcAddr : Nat → Nat) (s : ClientState) :
    ClientState × Nat :=
  let kp := ks s.keyCtr
  let addr := calcAddr kp.«public»
  ({ s with keyPair := kp, address := addr, keyCtr := s.keyCtr + 1,
            wallet := s.wallet ++ [⟨addr, kp⟩] }, addr)

/-- `Client.postTransaction` (`src/client.js`).  Parameters: `bal` is
`lastConfirmedBlock.balanceOf`, `ks`/`calcAddr` as in `generateAddress`,
`hashTx`/`sg` the external hash and signing primitives.  In source order:
total the requested outputs plus the fee; throw `"Not enough money!"` when
the total exceeds `getConfirmedBalance()` (the throw happens before any
mutation, so the state is returned untouched with `none`); gather UTXOs
from the front of the wallet (a crash inside the gather loop leaves the
already-shifted wallet behind); append a change output to a freshly
generated address when too much was gathered; build the transaction
(`nonce: 0`, empty `sig`); sign once per gathered private key; record it
in `pendingOutgoingTransactions`; broadcast it.  (The final
miner-only `addTransaction` hook does not exist on a plain client.) -/
def postTransaction (bal : Nat → Nat) (ks : Nat → KeyPair) (calcAddr : Nat → Nat)
    (hashTx : IdPayload → Nat) (sg : Nat → Nat → Nat)
    (s : ClientState) (outputs : List Output) (fee : Nat) :
    ClientState × Option Transaction :=
  let total := outputs.foldl (fun acc o => acc + o.amount) 0 + fee
  if getConfirmedBalance bal s.wallet < total then (s, none)
  else
    let g := gatherLoop bal total s.wallet 0
    let s1 := { s with wallet := g.1 }
    let gathered := g.2.1
    if g.2.2.2.2.2 then (s1, none)
    else
      let so :=
        if total < gathered then
          let r := generateAddress ks calcAddr s1
          (r.1, outputs ++ [⟨gathered - total, r.2⟩])
        else (s1, outputs)
      let tx : Transaction :=
        { «from» := g.2.2.1, nonce := 0, pubKey := g.2.2.2.1, sig := [],
          outputs := so.2, fee := fee, data := 0 }
      let txSigned := (g.2.2.2.2.1).foldl (fun t pk => Transaction.sign sg hashTx pk t) tx
      let s2 := so.1
      ({ s2 with
          pendingOutgoing := mapSet (Transaction.id hashTx txSigned) txSigned s2.pendingOutgoing,
          outbox := s2.outbox ++ [Msg.postTx txSigned] }, some txSigned)

/-- The `while` loop of `Client.recoverFunds` (`src/client.js`), with an
instrumented trace: the second component lists, in order, every address
passed to `lastConfirmedBlock.balanceOf`, where `none` is the JS
`undefined` (`balU`, the external balance table, accordingly takes an
`Option Nat`).  Each iteration evaluates the guard
`balanceOf(checkAddress) !== 0 || attempts < maxAttempts` — `checkAddress`
is still `undefined` the first time, since it is declared without an
initializer and only assigned inside the body — then draws the next
keypair from the stream, queries the fresh address, and either counts a
miss or appends the slot to the wallet and resets the counter (the
success branch queries the fresh address once more for its log line).
The JS loop is unbounded (balances never becoming zero keep it running),
hence the fuel. -/
def recoverFundsLoop (balU : Option Nat → Nat) (ks : Nat → KeyPair) (calcAddr : Nat → Nat)
    (maxAttempts : Nat) :
    Nat → ClientState → Option Nat → Nat → ClientState × List (Option Nat)
  | 0, s, _, _ => (s, [])
  | fuel + 1, s, checkAddress, attempts =>
    if balU checkAddress ≠ 0 ∨ attempts < maxAttempts then
      let kp := ks s.keyCtr
      let addr := calcAddr kp.«public»
      let s1 := { s with keyCtr := s.keyCtr + 1 }
      if balU (some addr) = 0 then
        let r := recoverFundsLoop balU ks calcAddr maxAttempts fuel s1 (some addr) (attempts + 1)
        (r.1, checkAddress :: some addr :: r.2)
      else
        let s2 := { s1 with wallet := s1.wallet ++ [⟨addr, kp⟩] }
        let r := recoverFundsLoop balU ks calcAddr maxAttempts fuel s2 (some addr) 0
        (r.1, checkAddress :: some addr :: some addr :: r.2)
    else (s, [checkAddress])

/-- `Client.recoverFunds(maxAttempts)` (`src/client.js`): runs the loop
with `attempts = 0` and `checkAddress` *undeclared* (`let checkAddress;`),
i.e. `undefined` (`none`). -/
def recoverFunds (balU : Option Nat → Nat) (ks : Nat → KeyPair) (calcAddr : Nat → Nat)
    (fuel : Nat) (s : ClientState) (maxAttempts : Nat) : ClientState × List (Option Nat) :=
  recoverFundsLoop balU ks calcAddr maxAttempts fuel s none 0

/-! ## Concrete instances used by counterexamples and witnesses -/

/-- The 11-character binary word of an index, written with the program's
own `translate11bit`. -/
def natToWord (n : Nat) : List Char :=
  (Mnemonic.translate11bit n).map (fun b => if b then '1' else '0')

/-- A concrete wordlist with the interface properties the spec requires of
the externally supplied list (§6): exactly 2048 distinct words, none
containing a space. -/
def fakeWordlist : List (List Char) := (List.range 2048).map natToWord

/-- A 25-word phrase: 24 copies of word 0 of `fakeWordlist` followed by
the word `"x"`, which is not in the list. -/
def junkPhrase : List Char :=
  List.intercalate [' '] (List.replicate 24 (natToWord 0) ++ [['x']])

/-- Trivial external behaviour for witnesses: every `rerun` succeeds, no
block contains any transaction, `CONFIRMED_DEPTH` is 6. -/
def extTriv : BlockExt := ⟨fun _ _ => true, fun _ _ => false, 6⟩

/-- A concrete genesis block for witnesses. -/
def genesisB : Block := ⟨0, 0, 0, true, true⟩

/-- A concrete child of `genesisB` at chain length 1. -/
def blockB1 : Block := ⟨1, 0, 1, false, true⟩

/-- A concrete competing child of `genesisB` at chain length 2. -/
def blockB2 : Block := ⟨2, 0, 2, false, true⟩

/-- A concrete client state for witnesses: knows only the genesis block,
which is both head and confirmed head. -/
def state0 : ClientState :=
  { blocks := [(0, genesisB)], pendingBlocks := [], lastBlock := genesisB,
    lastConfirmedBlock := genesisB, pendingOutgoing := [], wallet := [],
    keyPair := ⟨0, 0⟩, address := 99, keyCtr := 0, outbox := [] }

/-- A concrete client state for the wallet witnesses: one wallet slot. -/
def walletState0 : ClientState :=
  { blocks := [(0, genesisB)], pendingBlocks := [], lastBlock := genesisB,
    lastConfirmedBlock := genesisB, pendingOutgoing := [], wallet := [⟨5, ⟨1, 2⟩⟩],
    keyPair := ⟨1, 2⟩, address := 5, keyCtr := 1, outbox := [] }

/-! ## Helper lemmas: the mnemonic codec -/

namespace Mnemonic

theorem length_convertByteToBinString (b : Nat) : (convertByteToBinString b).length = 8 := rfl

set_option maxRecDepth 4000 in
theorem convertBinStringToByte_convertByteToBinString :
    ∀ b < 256, convertBinStringToByte (convertByteToBinString b) = some b := by decide

theorem rebuildBytes_flatMap (seq : List Nat) (h : ∀ b ∈ seq, b < 256) :
    rebuildBytes seq.length (seq.flatMap convertByteToBinString) = some seq := by
  induction seq with
  | nil => rfl
  | cons b rest ih =>
    have hb : b < 256 := h b (List.mem_cons_self b rest)
    have hrest := ih (fun x hx => h x (List.mem_cons_of_mem b hx))
    have ht : ((b :: rest).flatMap convertByteToBinString).take 8 = convertByteToBinString b := by
      rw [List.flatMap_cons, show (8 : Nat) = (convertByteToBinString b).length from rfl,
        List.take_left]
    have hd : ((b :: rest).flatMap convertByteToBinString).drop 8
        = rest.flatMap convertByteToBinString := by
      rw [List.flatMap_cons, show (8 : Nat) = (convertByteToBinString b).length from rfl,
        List.drop_left]
    simp only [List.length_cons, rebuildBytes, ht, hd,
      convertBinStringToByte_convertByteToBinString b hb, hrest]

theorem chunks11Go_spec (m : Nat) : ∀ (f : Nat) (l : List Bool), l.length = 11 * m →
    l.length ≤ f → (chunks11Go f l).flatten = l ∧ ∀ c ∈ chunks11Go f l, c.length = 11 := by
  induction m with
  | zero =>
    intro f l hl _
    have : l = [] := List.eq_nil_of_length_eq_zero (by omega)
    subst this
    cases f <;> simp [chunks11Go]
  | succ m ih =>
    intro f l hl hf
    match f with
    | 0 => omega
    | f + 1 =>
      have h11 : 11 ≤ l.length := by omega
      have hdl : (l.drop 11).length = 11 * m := by simp [List.length_drop]; omega
      have hdf : (l.drop 11).length ≤ f := by simp [List.length_drop]; omega
      obtain ⟨ihf, ihl⟩ := ih f (l.drop 11) hdl hdf
      constructor
      · simp only [chunks11Go, if_pos h11, List.flatten_cons, ihf, List.take_append_drop]
      · intro c hc
        simp only [chunks11Go, if_pos h11, List.mem_cons] at hc
        rcases hc with rfl | hc
        · simp [List.length_take]; omega
        · exact ihl c hc

theorem chunks11_spec (m : Nat) (l : List Bool) (hl : l.length = 11 * m) :
    (chunks11 l).flatten = l ∧ ∀ c ∈ chunks11 l, c.length = 11 :=
  chunks11Go_spec m l.length l hl le_rfl

theorem bitsVal_lt : ∀ (bs : List Bool) (k : Nat), bs.length ≤ k + 1 →
    bitsVal bs (2 ^ k) < 2 ^ (k + 1) := by
  intro bs
  induction bs with
  | nil => intro k _; exact Nat.pos_pow_of_pos (k + 1) (by norm_num)
  | cons b rest ih =>
    intro k hk
    match k with
    | 0 =>
      have : rest = [] := List.eq_nil_of_length_eq_zero (by simpa using hk)
      subst this
      cases b <;> simp [bitsVal]
    | k + 1 =>
      have hdiv : 2 ^ (k + 1) / 2 = 2 ^ k := by
        rw [Nat.pow_succ, Nat.mul_div_cancel _ (by norm_num)]
      have hrest : bitsVal rest (2 ^ k) < 2 ^ (k + 1) := ih k (by simpa using hk)
      have hpow : (2 : Nat) ^ (k + 2) = 2 ^ (k + 1) + 2 ^ (k + 1) := by ring
      cases b <;> simp [bitsVal, hdiv] <;> omega

theorem translate11bitGo_bitsVal : ∀ (k : Nat) (bs : List Bool), bs.length = k + 1 →
    translate11bitGo (bitsVal bs (2 ^ k)) (powList k) = bs := by
  intro k
  induction k with
  | zero =>
    intro bs hbs
    match bs with
    | [b] => cases b <;> simp [bitsVal, powList, translate11bitGo]
  | succ k ih =>
    intro bs hbs
    match bs with
    | b :: rest =>
      have hrl : rest.length = k + 1 := by simpa using hbs
      have hdiv : 2 ^ (k + 1) / 2 = 2 ^ k := by
        rw [Nat.pow_succ, Nat.mul_div_cancel _ (by norm_num)]
      have hm : bitsVal rest (2 ^ k) < 2 ^ (k + 1) := bitsVal_lt rest k (le_of_eq hrl)
      have hrec := ih rest hrl
      have hbv : bitsVal (b :: rest) (2 ^ (k + 1))
          = (if b then 2 ^ (k + 1) else 0) + bitsVal rest (2 ^ k) := by
        simp [bitsVal, hdiv]
      cases b with
      | true =>
        rw [hbv, if_pos rfl, powList]
        simp only [translate11bitGo]
        rw [if_pos (by omega), Nat.add_sub_cancel_left, hrec]
      | false =>
        rw [hbv, if_neg (by simp), Nat.zero_add, powList]
        simp only [translate11bitGo]
        rw [if_neg (by omega), hrec]

theorem bitsVal_translate11bitGo : ∀ (k n : Nat), n < 2 ^ (k + 1) →
    bitsVal (translate11bitGo n (powList k)) (2 ^ k) = n := by
  intro k
  induction k with
  | zero =>
    intro n hn
    have h2 : n < 2 := by simpa using hn
    interval_cases n <;> simp [powList, translate11bitGo, bitsVal]
  | succ k ih =>
    intro n hn
    have hdiv : 2 ^ (k + 1) / 2 = 2 ^ k := by
      rw [Nat.pow_succ, Nat.mul_div_cancel _ (by norm_num)]
    have hpow : (2 : Nat) ^ (k + 1 + 1) = 2 ^ (k + 1) + 2 ^ (k + 1) := by ring
    rw [powList]
    have hbt : ∀ l : List Bool, bitsVal (true :: l) (2 ^ (k + 1)) = 2 ^ (k + 1) + bitsVal l (2 ^ k) := by
      intro l; simp [bitsVal, hdiv]
    have hbf : ∀ l : List Bool, bitsVal (false :: l) (2 ^ (k + 1)) = bitsVal l (2 ^ k) := by
      intro l; simp [bitsVal, hdiv]
    by_cases hc : 2 ^ (k + 1) ≤ n
    · have hlt : n - 2 ^ (k + 1) < 2 ^ (k + 1) := by omega
      simp only [translate11bitGo]
      rw [if_pos hc, hbt, ih _ hlt]
      omega
    · simp only [translate11bitGo]
      rw [if_neg hc, hbf, ih _ (by omega)]

theorem powList_ten : powList 10 = [1024, 512, 256, 128, 64, 32, 16, 8, 4, 2, 1] := by
  simp [powList]

theorem translate11bit_elevenBitVal (c : List Bool) (hc : c.length = 11) :
    translate11bit (elevenBitVal c) = c := by
  have h := translate11bitGo_bitsVal 10 c (by omega)
  rw [translate11bit, elevenBitVal, ← powList_ten, show (1024 : Nat) = 2 ^ 10 by norm_num]
  exact h

theorem elevenBitVal_lt (c : List Bool) (hc : c.length = 11) : elevenBitVal c < 2048 := by
  have h := bitsVal_lt c 10 (by omega)
  rw [elevenBitVal, show (1024 : Nat) = 2 ^ 10 by norm_num]
  simpa using h

theorem elevenBitVal_translate11bit (n : Nat) (hn : n < 2048) :
    elevenBitVal (translate11bit n) = n := by
  have h := bitsVal_translate11bitGo 10 n (by norm_num; omega)
  rw [elevenBitVal, translate11bit, ← powList_ten, show (1024 : Nat) = 2 ^ 10 by norm_num]
  exact h

theorem length_translate11bitGo : ∀ (n : Nat) (ps : List Nat),
    (translate11bitGo n ps).length = ps.length := by
  intro n ps
  induction ps generalizing n with
  | nil => rfl
  | cons p rest ih => simp only [translate11bitGo]; split <;> simp [ih]

theorem length_translate11bit (n : Nat) : (translate11bit n).length = 11 := by
  simp [translate11bit, length_translate11bitGo]

end Mnemonic

namespace Mnemonic

theorem scanFrom_not_mem (w : List Char) :
    ∀ (rest : List (List Char)) (m : Nat), w ∉ rest →
      (List.enumFrom m rest).flatMap
        (fun p => if w = p.2 then translate11bit p.1 else []) = [] := by
  intro rest
  induction rest with
  | nil => intro m _; rfl
  | cons r rs ih =>
    intro m hw
    have hwr : w ≠ r := fun h => hw (h ▸ List.mem_cons_self r rs)
    have htail : w ∉ rs := fun h => hw (List.mem_cons_of_mem r h)
    rw [show List.enumFrom m (r :: rs) = (m, r) :: List.enumFrom (m + 1) rs from rfl]
    simp only [List.flatMap_cons]
    rw [if_neg hwr, List.nil_append, ih (m + 1) htail]

theorem scanFrom_get :
    ∀ (wl : List (List Char)) (m v : Nat) (hv : v < wl.length), wl.Nodup →
      (List.enumFrom m wl).flatMap
        (fun p => if wl.get ⟨v, hv⟩ = p.2 then translate11bit p.1 else [])
        = translate11bit (m + v) := by
  intro wl
  induction wl with
  | nil => intro m v hv _; exact absurd hv (by simp)
  | cons r rs ih =>
    intro m v hv hnd
    have hr : r ∉ rs := (List.nodup_cons.mp hnd).1
    have hnd2 : rs.Nodup := (List.nodup_cons.mp hnd).2
    rw [show List.enumFrom m (r :: rs) = (m, r) :: List.enumFrom (m + 1) rs from rfl]
    simp only [List.flatMap_cons]
    cases v with
    | zero =>
      have hget : (r :: rs).get ⟨0, hv⟩ = r := rfl
      rw [hget, if_pos rfl, scanFrom_not_mem r rs (m + 1) hr, List.append_nil, Nat.add_zero]
    | succ v =>
      have hv2 : v < rs.length := by simpa using hv
      have hget : (r :: rs).get ⟨v + 1, hv⟩ = rs.get ⟨v, hv2⟩ := rfl
      have hmem : rs.get ⟨v, hv2⟩ ∈ rs := List.mem_iff_get.mpr ⟨⟨v, hv2⟩, rfl⟩
      have hne : rs.get ⟨v, hv2⟩ ≠ r := fun h => hr (h ▸ hmem)
      rw [hget, if_neg hne, List.nil_append, ih (m + 1) v hv2 hnd2]
      congr 1
      omega

theorem scanWordlist_get (wl : List (List Char)) (hnd : wl.Nodup) (v : Nat)
    (hv : v < wl.length) : scanWordlist wl (wl.get ⟨v, hv⟩) = translate11bit v := by
  have h := scanFrom_get wl 0 v hv hnd
  rw [Nat.zero_add] at h
  exact h

theorem scanWordlist_not_mem (wl : List (List Char)) (w : List Char) (hw : w ∉ wl) :
    scanWordlist wl w = [] :=
  scanFrom_not_mem w wl 0 hw

theorem flatMap_scan_chunks (wl : List (List Char)) (hnd : wl.Nodup)
    (hlen : wl.length = 2048) :
    ∀ (cs : List (List Bool)), (∀ c ∈ cs, c.length = 11) →
      ((cs.map (fun c => wl.getD (elevenBitVal c) [])).flatMap (scanWordlist wl))
        = cs.flatten := by
  intro cs
  induction cs with
  | nil => intro _; rfl
  | cons c rest ih =>
    intro hc
    have hc11 : c.length = 11 := hc c (List.mem_cons_self c rest)
    have hv : elevenBitVal c < wl.length := by rw [hlen]; exact elevenBitVal_lt c hc11
    have hgd : wl.getD (elevenBitVal c) [] = wl.get ⟨elevenBitVal c, hv⟩ :=
      List.getD_eq_get wl [] hv
    rw [List.map_cons, List.flatMap_cons, hgd, scanWordlist_get wl hnd _ hv,
      translate11bit_elevenBitVal c hc11, ih (fun x hx => hc x (List.mem_cons_of_mem c hx)),
      List.flatten_cons]

end Mnemonic

namespace Mnemonic

theorem rebuildBytes_eq_none : ∀ (k : Nat) (bits : List Bool),
    rebuildBytes (k + 1) bits = none ↔ bits.length ≤ 8 * k := by
  intro k
  induction k with
  | zero =>
    intro bits
    match bits with
    | [] => simp [rebuildBytes, convertBinStringToByte]
    | b :: rest =>
      simp [rebuildBytes, List.take_succ_cons, convertBinStringToByte]
  | succ k ih =>
    intro bits
    match bits with
    | [] => simp [rebuildBytes, convertBinStringToByte]
    | b :: rest =>
      have hv : convertBinStringToByte ((b :: rest).take 8)
          = some (((b :: rest).take 8).foldl
              (fun acc bb => 2 * acc + (if bb then 1 else 0)) 0) := by
        simp [List.take_succ_cons, convertBinStringToByte]
      rw [rebuildBytes, hv]
      have hdrop : ((b :: rest).drop 8).length = rest.length + 1 - 8 := by
        simp [List.length_drop]
      cases hrec : rebuildBytes (k + 1) ((b :: rest).drop 8) with
      | none =>
        have h1 := (ih _).mp hrec
        rw [hdrop] at h1
        simp only [hrec, List.length_cons]
        constructor
        · intro _; omega
        · intro _; trivial
      | some buf =>
        have h1 : ¬ ((b :: rest).drop 8).length ≤ 8 * k := by
          intro hc
          rw [(ih _).mpr hc] at hrec
          exact Option.noConfusion hrec
        rw [hdrop] at h1
        simp only [hrec, List.length_cons]
        constructor
        · intro h; exact absurd h (by simp)
        · intro h; exfalso; omega

theorem rebuildBytes_some_length : ∀ (k : Nat) (bits : List Bool) (buf : List Nat),
    rebuildBytes k bits = some buf → buf.length = k := by
  intro k
  induction k with
  | zero =>
    intro bits buf h
    have hb : buf = [] := (Option.some.inj h).symm
    simp [hb]
  | succ k ih =>
    intro bits buf h
    rw [rebuildBytes] at h
    cases hcv : convertBinStringToByte (bits.take 8) with
    | none => rw [hcv] at h; exact absurd h (by simp)
    | some v =>
      rw [hcv] at h
      cases hrec : rebuildBytes k (bits.drop 8) with
      | none => rw [hrec] at h; exact absurd h (by simp)
      | some rest =>
        rw [hrec] at h
        have hb : buf = v :: rest := (Option.some.inj h).symm
        simp [hb, ih _ _ hrec]

theorem calculateSequence_eq_none_iff (wl : List (List Char)) (phrase : List Char) :
    calculateSequence wl phrase = none
      ↔ ((phrase.splitOn ' ').flatMap (scanWordlist wl)).length ≤ 256 := by
  have h := rebuildBytes_eq_none 32 ((phrase.splitOn ' ').flatMap (scanWordlist wl))
  simpa [calculateSequence, NUM_BYTES] using h

theorem calculateSequence_some_length (wl : List (List Char)) (phrase : List Char)
    (buf : List Nat) (h : calculateSequence wl phrase = some buf) : buf.length = 33 :=
  rebuildBytes_some_length 33 _ buf (by simpa [calculateSequence, NUM_BYTES] using h)

end Mnemonic

namespace Mnemonic

theorem length_flatMap_convertByteToBinString (seq : List Nat) :
    (seq.flatMap convertByteToBinString).length = 8 * seq.length := by
  induction seq with
  | nil => rfl
  | cons b rest ih =>
    simp only [List.flatMap_cons, List.length_append, length_convertByteToBinString, ih,
      List.length_cons]
    omega

end Mnemonic

theorem natToWord_length (n : Nat) : (natToWord n).length = 11 := by
  simp [natToWord, Mnemonic.length_translate11bit]

theorem natToWord_no_space (n : Nat) : ' ' ∉ natToWord n := by
  intro hsp
  simp only [natToWord, List.mem_map] at hsp
  obtain ⟨b, _, hb⟩ := hsp
  cases b <;> revert hb <;> decide

theorem natToWord_inj (a : Nat) (ha : a < 2048) (b : Nat) (hb : b < 2048)
    (h : natToWord a = natToWord b) : a = b := by
  have hinj : Function.Injective (fun x : Bool => if x then '1' else '0') := by
    intro x y hxy
    cases x <;> cases y <;> revert hxy <;> decide
  have hmap : Mnemonic.translate11bit a = Mnemonic.translate11bit b :=
    List.map_injective_iff.mpr hinj h
  calc a = Mnemonic.elevenBitVal (Mnemonic.translate11bit a) :=
        (Mnemonic.elevenBitVal_translate11bit a ha).symm
    _ = Mnemonic.elevenBitVal (Mnemonic.translate11bit b) := by rw [hmap]
    _ = b := Mnemonic.elevenBitVal_translate11bit b hb

theorem fakeWordlist_length : fakeWordlist.length = 2048 := by
  rw [fakeWordlist, List.length_map, List.length_range]

theorem fakeWordlist_nodup : fakeWordlist.Nodup := by
  rw [fakeWordlist]
  exact List.Nodup.map_on
    (fun x hx y hy h => natToWord_inj x (List.mem_range.mp hx) y (List.mem_range.mp hy) h)
    (List.nodup_range 2048)

theorem fakeWordlist_no_space : ∀ w ∈ fakeWordlist, ' ' ∉ w := by
  intro w hw
  simp only [fakeWordlist, List.mem_map] at hw
  obtain ⟨n, _, rfl⟩ := hw
  exact natToWord_no_space n

theorem fakeWordlist_word_length : ∀ w ∈ fakeWordlist, w.length = 11 := by
  intro w hw
  simp only [fakeWordlist, List.mem_map] at hw
  obtain ⟨n, _, rfl⟩ := hw
  exact natToWord_length n

theorem junk_not_mem_fakeWordlist : ['x'] ∉ fakeWordlist := by
  intro h
  have := fakeWordlist_word_length _ h
  simp at this

theorem fakeWordlist_get0 (h : 0 < fakeWordlist.length) :
    fakeWordlist.get ⟨0, h⟩ = natToWord 0 := by
  rw [List.get_eq_getElem]
  simp only [fakeWordlist, List.getElem_map, List.getElem_range]

open Mnemonic in
/-- **C2.**  Round-trip of the mnemonic codec: for every 33-byte buffer of
bytes (and every wordlist satisfying the external-interface contract of
the spec, §6: 2048 distinct words, none containing a space), encoding the
buffer to its 24-word phrase with `words()` and then parsing that phrase
with `calculateSequence` reproduces exactly the original buffer. -/
theorem c2_mnemonic_roundtrip (wl : List (List Char)) (hlen : wl.length = 2048)
    (hnd : wl.Nodup) (hsp : ∀ w ∈ wl, ' ' ∉ w) (seq : List Nat)
    (hslen : seq.length = 33) (hbytes : ∀ b ∈ seq, b < 256) :
    Mnemonic.calculateSequence wl (Mnemonic.words wl seq) = some seq := by
  have h24 : (seq.flatMap convertByteToBinString).length = 11 * 24 := by
    rw [length_flatMap_convertByteToBinString, hslen]
  obtain ⟨hflat, hc11⟩ := chunks11_spec 24 _ h24
  have hws : (split seq).map (fun v => wl.getD v [])
      = (chunks11 (seq.flatMap convertByteToBinString)).map
          (fun c => wl.getD (elevenBitVal c) []) := by
    rw [split, List.map_map]
    rfl
  have hmem_ws : ∀ w ∈ (chunks11 (seq.flatMap convertByteToBinString)).map
      (fun c => wl.getD (elevenBitVal c) []), ' ' ∉ w := by
    intro w hw
    simp only [List.mem_map] at hw
    obtain ⟨c, hc, rfl⟩ := hw
    have hv : elevenBitVal c < wl.length := by rw [hlen]; exact elevenBitVal_lt c (hc11 c hc)
    rw [List.getD_eq_get wl [] hv]
    exact hsp _ (List.mem_iff_get.mpr ⟨⟨_, hv⟩, rfl⟩)
  have hcsne : chunks11 (seq.flatMap convertByteToBinString) ≠ [] := by
    intro h
    rw [h] at hflat
    rw [← hflat] at h24
    simp at h24
  have hne : (chunks11 (seq.flatMap convertByteToBinString)).map
      (fun c => wl.getD (elevenBitVal c) []) ≠ [] := by
    intro h
    exact hcsne (List.map_eq_nil_iff.mp h)
  rw [words, hws]
  simp only [calculateSequence]
  rw [List.splitOn_intercalate _ ' ' hmem_ws hne,
    flatMap_scan_chunks wl hnd hlen _ hc11, hflat]
  have hrebuild := rebuildBytes_flatMap seq hbytes
  rw [hslen] at hrebuild
  exact hrebuild

/-- Witness for `c2_mnemonic_roundtrip` at the all-zero buffer and the
concrete 2048-word list `fakeWordlist`. -/
theorem c2_mnemonic_roundtrip_witness :
    Mnemonic.calculateSequence fakeWordlist
      (Mnemonic.words fakeWordlist (List.replicate 33 0)) = some (List.replicate 33 0) :=
  c2_mnemonic_roundtrip fakeWordlist fakeWordlist_length fakeWordlist_nodup
    fakeWordlist_no_space (List.replicate 33 0) (List.length_replicate 33 0)
    (fun b hb => by rw [List.eq_of_mem_replicate hb]; norm_num)

theorem junkPhrase_splitOn :
    junkPhrase.splitOn ' ' = List.replicate 24 (natToWord 0) ++ [['x']] := by
  apply List.splitOn_intercalate
  · intro l hl
    rcases List.mem_append.mp hl with h | h
    · rw [List.eq_of_mem_replicate h]
      exact natToWord_no_space 0
    · simp only [List.mem_singleton] at h
      rw [h]
      decide
  · simp

open Mnemonic in
theorem scanWordlist_fake_word0 :
    Mnemonic.scanWordlist fakeWordlist (natToWord 0) = Mnemonic.translate11bit 0 := by
  have h0 : 0 < fakeWordlist.length := by rw [fakeWordlist_length]; norm_num
  have h := scanWordlist_get fakeWordlist fakeWordlist_nodup 0 h0
  rw [fakeWordlist_get0 h0] at h
  exact h

set_option maxRecDepth 4000 in
open Mnemonic in
/-- **C4, counterexample.**  `fakeWordlist` satisfies everything the spec
demands of the external wordlist (2048 distinct space-free words), the
phrase `junkPhrase` contains the word `"x"`, which is not in the list,
and yet `calculateSequence` does *not* fail on it: the 24 remaining valid
words contribute 264 bits, so a full 33-byte buffer is produced and the
absent word is silently ignored. -/
theorem c4_counterexample :
    fakeWordlist.length = 2048 ∧ fakeWordlist.Nodup ∧ (∀ w ∈ fakeWordlist, ' ' ∉ w) ∧
    ['x'] ∈ junkPhrase.splitOn ' ' ∧ ['x'] ∉ fakeWordlist ∧
    Mnemonic.calculateSequence fakeWordlist junkPhrase ≠ none := by
  refine ⟨fakeWordlist_length, fakeWordlist_nodup, fakeWordlist_no_space, ?_,
    junk_not_mem_fakeWordlist, ?_⟩
  · rw [junkPhrase_splitOn]
    simp
  · intro hnone
    rw [calculateSequence_eq_none_iff, junkPhrase_splitOn] at hnone
    have hscanx : scanWordlist fakeWordlist ['x'] = [] :=
      scanWordlist_not_mem _ _ junk_not_mem_fakeWordlist
    rw [List.length_flatMap, List.map_append, List.map_replicate, List.sum_append] at hnone
    simp only [List.map_cons, List.map_nil, Function.comp_apply] at hnone
    rw [scanWordlist_fake_word0, hscanx, length_translate11bit, List.sum_replicate,
      smul_eq_mul] at hnone
    simp only [List.length_nil, List.sum_cons, List.sum_nil] at hnone
    omega

open Mnemonic in
/-- **C4, amended.**  What `calculateSequence` actually does with its bit
accumulator: a word absent from the wordlist contributes no bits and
raises no error; the parse throws (modelled `none`) exactly when the
looked-up words contribute at most 256 bits (so that the byte-rebuilding
loop runs out of bits and `parseInt("")` produces `NaN`); in every other
case — including totals other than 264 bits — it produces a buffer of
exactly `NUM_BYTES + 1 = 33` bytes, ignoring any bits beyond byte 33. -/
theorem c4_parse_failure_amended (wl : List (List Char)) (phrase : List Char) :
    (Mnemonic.calculateSequence wl phrase = none
      ↔ ((phrase.splitOn ' ').flatMap (Mnemonic.scanWordlist wl)).length ≤ 256) ∧
    (∀ buf, Mnemonic.calculateSequence wl phrase = some buf → buf.length = 33) :=
  ⟨calculateSequence_eq_none_iff wl phrase,
   fun buf h => calculateSequence_some_length wl phrase buf h⟩

/-- Witness for `c4_parse_failure_amended`: on the empty wordlist and the
empty phrase the contributed bit count is 0, so the parse throws. -/
theorem c4_parse_failure_amended_witness :
    Mnemonic.calculateSequence [] [] = none :=
  (c4_parse_failure_amended [] []).1.mpr (by decide)

namespace Mnemonic

theorem take_two_flatMap (f : Nat → List Char) (hf : ∀ b, (f b).length = 2) :
    ∀ (l : List Nat) (k : Nat), (l.flatMap f).take (2 * k) = (l.take k).flatMap f := by
  intro l
  induction l with
  | nil => intro k; simp
  | cons b rest ih =>
    intro k
    match k with
    | 0 => simp
    | k + 1 =>
      rw [List.flatMap_cons, List.take_succ_cons, List.flatMap_cons,
        List.take_append_eq_append_take, hf b]
      have h1 : (f b).take (2 * (k + 1)) = f b :=
        List.take_of_length_le (by rw [hf b]; omega)
      have h2 : 2 * (k + 1) - 2 = 2 * k := by omega
      rw [h1, h2, ih k]

theorem take32_flatMap_byteToHex (l : List Nat) :
    (l.flatMap byteToHex).take 32 = (l.take 16).flatMap byteToHex := by
  have h := take_two_flatMap byteToHex (fun _ => rfl) l 16
  norm_num at h
  exact h

theorem take_set_of_le {α : Type} : ∀ (l : List α) (n m : Nat) (a : α), m ≤ n →
    (l.set n a).take m = l.take m := by
  intro l
  induction l with
  | nil => intro n m a _; simp
  | cons b rest ih =>
    intro n m a hmn
    match m with
    | 0 => simp
    | m + 1 =>
      match n with
      | n + 1 =>
        rw [List.set_cons_succ, List.take_succ_cons, List.take_succ_cons,
          ih n m a (by omega)]

end Mnemonic

/-- **C3, demonstration of the defect.**  `calcChecksum` hashes
`this.seq.toString('hex').slice(0, 32)`, which is the hex text of only the
first 16 bytes of the buffer: two 33-byte buffers that differ exactly in
entropy byte 16 (an entropy byte, since `16 < NUM_BYTES = 32`) feed the
*same* input to the checksum hash, so no hash function can distinguish
them — flipping bits in entropy bytes 16…31 does not change the checksum
input, contradicting the claim that the hashed input covers all 32
entropy bytes. -/
theorem c3_checksum_ignores_byte16 :
    Mnemonic.checksumInput ((List.replicate 33 0).set 16 255)
      = Mnemonic.checksumInput (List.replicate 33 0) ∧
    ((List.replicate 33 0).set 16 255).getD 16 0 ≠ (List.replicate 33 0).getD 16 0 ∧
    16 < Mnemonic.NUM_BYTES := by decide

/-- **C10.**  Every freshly constructed `Mnemonic` satisfies `isValid()`:
the constructor writes `calcChecksum()` of the just-randomized buffer
into the 33rd byte, and `isValid()` recomputes the checksum with the same
`calcChecksum` over bytes the write did not touch, so the comparison
always succeeds, for every random buffer `r` and every hash function. -/
theorem c10_construct_isValid (h : List Char → Nat) (r : List Nat) (hr : r.length = 33) :
    Mnemonic.isValid h (Mnemonic.construct h r) = true := by
  rw [Mnemonic.isValid, Mnemonic.construct]
  have hinput : Mnemonic.checksumInput (r.set Mnemonic.NUM_BYTES (Mnemonic.calcChecksum h r))
      = Mnemonic.checksumInput r := by
    rw [Mnemonic.checksumInput, Mnemonic.checksumInput]
    show (_ : List Char).take 32 = (_ : List Char).take 32
    rw [Mnemonic.take32_flatMap_byteToHex, Mnemonic.take32_flatMap_byteToHex,
      Mnemonic.take_set_of_le r Mnemonic.NUM_BYTES 16 _ (by rw [Mnemonic.NUM_BYTES]; omega)]
  have hlen : Mnemonic.NUM_BYTES
      < (r.set Mnemonic.NUM_BYTES (Mnemonic.calcChecksum h r)).length := by
    rw [List.length_set, hr, Mnemonic.NUM_BYTES]
    omega
  have hgd : (r.set Mnemonic.NUM_BYTES (Mnemonic.calcChecksum h r)).getD
      Mnemonic.NUM_BYTES 0 = Mnemonic.calcChecksum h r := by
    rw [List.getD_eq_getElem _ _ hlen]
    exact List.getElem_set_self _
  rw [show Mnemonic.calcChecksum h (r.set Mnemonic.NUM_BYTES (Mnemonic.calcChecksum h r))
      = h (Mnemonic.checksumInput (r.set Mnemonic.NUM_BYTES (Mnemonic.calcChecksum h r)))
    from rfl, hinput, hgd]
  exact beq_self_eq_true _

/-- Witness for `c10_construct_isValid` at the all-zero random buffer and
a constant hash function. -/
theorem c10_construct_isValid_witness :
    Mnemonic.isValid (fun _ => 7) (Mnemonic.construct (fun _ => 7) (List.replicate 33 0))
      = true :=
  c10_construct_isValid (fun _ => 7) (List.replicate 33 0) (List.length_replicate 33 0)

/-! ## Theorems: the transaction model -/

theorem txId_foldl_sign (sg : Nat → Nat → Nat) (hashTx : IdPayload → Nat) :
    ∀ (privs : List Nat) (tx : Transaction),
      Transaction.id hashTx (privs.foldl (fun t pk => Transaction.sign sg hashTx pk t) tx)
        = Transaction.id hashTx tx := by
  intro privs
  induction privs with
  | nil => intro tx; rfl
  | cons p ps ih =>
    intro tx
    rw [List.foldl_cons, ih (Transaction.sign sg hashTx p tx)]
    rfl

/-- **C1, demonstration of the defect.**  `validSignature()` contains
`return true` *inside* its `for` loop, so it returns `true` after
examining index 0 only.  Concretely: with the toy external primitives
`amk a k := (k == some a)` (address matches key iff they are the same
token) and an always-true signature verifier, the transaction with
`from = [1, 2]` and `pubKey = [1, 3]` passes every check at index 0 and
*fails* the address check at index 1 (`pubKey[1] = 3` does not match
`from[1] = 2`), yet `validSignature` returns `true` — it returned after
checking only a proper prefix of the indices, which the claim (and spec
§4.3/§9) forbids. -/
theorem c1_validSignature_short_circuits :
    (Transaction.validSignature (fun a k => k == some a) (fun _ _ _ => true) (fun _ => 0)
       ⟨[1, 2], 0, [1, 3], [5, 5], [], 0, 0⟩ = true) ∧
    (((⟨[1, 2], 0, [1, 3], [5, 5], [], 0, 0⟩ : Transaction).pubKey.get? 1
       == some ((⟨[1, 2], 0, [1, 3], [5, 5], [], 0, 0⟩ : Transaction).«from».getD 1 0))
       = false) ∧
    (⟨[1, 2], 0, [1, 3], [5, 5], [], 0, 0⟩ : Transaction).«from».length = 2 := by
  decide

/-- **C5.**  A transaction's id is the hash of the domain-tagged payload
of exactly `{from, nonce, pubKey, outputs, fee, data}`; signing any
number of times (each `sign` only pushes onto `sig`) never changes the
id; and two transactions differing only in their `sig` lists have equal
ids. -/
theorem c5_tx_id_stability (hashTx : IdPayload → Nat) (sg : Nat → Nat → Nat)
    (tx : Transaction) :
    Transaction.id hashTx tx = hashTx (txIdPayload tx) ∧
    (∀ privs : List Nat,
      Transaction.id hashTx (privs.foldl (fun t pk => Transaction.sign sg hashTx pk t) tx)
        = Transaction.id hashTx tx) ∧
    (∀ sig2 : List Nat,
      Transaction.id hashTx { tx with sig := sig2 } = Transaction.id hashTx tx) :=
  ⟨rfl, fun privs => txId_foldl_sign sg hashTx privs tx, fun _ => rfl⟩

/-! ## Theorems: the ledger view (`receiveBlock`) and the wallet -/

theorem lookup_mapSet_self {β : Type} (k : Nat) (v : β) :
    ∀ (l : List (Nat × β)), (mapSet k v l).lookup k = some v := by
  intro l
  induction l with
  | nil => simp [mapSet, List.lookup]
  | cons p rest ih =>
    obtain ⟨kk, vv⟩ := p
    by_cases h : k = kk
    · subst h
      simp [mapSet, List.lookup]
    · have hbeq : (k == kk) = false := beq_eq_false_iff_ne.mpr h
      simp only [mapSet, if_neg h]
      simp [List.lookup, hbeq, ih]

theorem lookup_mapSet_ne {β : Type} (k kk : Nat) (v : β) (h : k ≠ kk) :
    ∀ (l : List (Nat × β)), (mapSet kk v l).lookup k = l.lookup k := by
  intro l
  have hbeq : (k == kk) = false := beq_eq_false_iff_ne.mpr h
  induction l with
  | nil => simp [mapSet, List.lookup, hbeq]
  | cons p rest ih =>
    obtain ⟨k2, v2⟩ := p
    by_cases h2 : kk = k2
    · subst h2
      simp [mapSet, List.lookup, hbeq]
    · simp only [mapSet, if_neg h2]
      by_cases h3 : k = k2
      · subst h3
        simp [List.lookup]
      · have hbeq3 : (k == k2) = false := beq_eq_false_iff_ne.mpr h3
        simp [List.lookup, hbeq3, ih]

theorem mapSet_idem {β : Type} (k : Nat) (v : β) :
    ∀ (l : List (Nat × β)), mapSet k v (mapSet k v l) = mapSet k v l := by
  intro l
  induction l with
  | nil => simp [mapSet]
  | cons p rest ih =>
    obtain ⟨kk, vv⟩ := p
    by_cases h : k = kk
    · subst h
      simp [mapSet]
    · simp only [mapSet, if_neg h]
      simp [mapSet, if_neg h, ih]

theorem lookup_mapDelete_ne {β : Type} (k kk : Nat) (h : k ≠ kk) :
    ∀ (l : List (Nat × β)), (mapDelete kk l).lookup k = l.lookup k := by
  intro l
  induction l with
  | nil => simp [mapDelete]
  | cons p rest ih =>
    obtain ⟨k2, v2⟩ := p
    by_cases h2 : kk = k2
    · subst h2
      have hbeq : (k == kk) = false := beq_eq_false_iff_ne.mpr h
      simp [mapDelete, List.lookup, hbeq]
    · by_cases h3 : k = k2
      · subst h3
        simp [mapDelete, if_neg h2, List.lookup]
      · have hbeq3 : (k == k2) = false := beq_eq_false_iff_ne.mpr h3
        simp [mapDelete, if_neg h2, List.lookup, hbeq3, ih]

theorem setLastConfirmed_blocks (ext : BlockExt) (st : ClientState) :
    (setLastConfirmed ext st).blocks = st.blocks := rfl

theorem setLastConfirmed_lastBlock (ext : BlockExt) (st : ClientState) :
    (setLastConfirmed ext st).lastBlock = st.lastBlock := rfl

theorem setLastConfirmed_pendingBlocks (ext : BlockExt) (st : ClientState) :
    (setLastConfirmed ext st).pendingBlocks = st.pendingBlocks := rfl

theorem receiveBlock_seen (ext : BlockExt) (fuel : Nat) (s : ClientState) (b : Block)
    (h : (s.blocks.lookup b.id).isSome = true) :
    receiveBlock ext fuel s b = (s, none) := by
  match fuel with
  | 0 => rfl
  | fuel + 1 =>
    simp only [receiveBlock, if_pos h]

theorem receiveBlock_reject_proof (ext : BlockExt) (fuel : Nat) (s : ClientState) (b : Block)
    (hid : (s.blocks.lookup b.id).isSome = false)
    (hproof : b.validProof = false) (hgen : b.genesis = false) :
    receiveBlock ext (fuel + 1) s b = (s, none) := by
  have h1 : ¬ ((s.blocks.lookup b.id).isSome = true) := by rw [hid]; simp
  have h2 : ¬ b.validProof = true ∧ ¬ b.genesis = true := by rw [hproof, hgen]; simp
  simp only [receiveBlock, if_neg h1, if_pos h2]

theorem receiveBlock_orphan_first (ext : BlockExt) (fuel : Nat) (s : ClientState) (b : Block)
    (hid : (s.blocks.lookup b.id).isSome = false)
    (hproof : b.validProof = true)
    (hprev : s.blocks.lookup b.prevBlockHash = none)
    (hgen : b.genesis = false)
    (hpend : s.pendingBlocks.lookup b.prevBlockHash = none) :
    receiveBlock ext (fuel + 1) s b
      = ({ s with
            pendingBlocks := mapSet b.prevBlockHash [b] s.pendingBlocks,
            outbox := s.outbox ++ [Msg.missingBlock s.address b.prevBlockHash] }, none) := by
  have h1 : ¬ ((s.blocks.lookup b.id).isSome = true) := by rw [hid]; simp
  have h2 : ¬ (¬ b.validProof = true ∧ ¬ b.genesis = true) := by rw [hproof]; simp
  have h3 : (s.blocks.lookup b.prevBlockHash).isNone = true ∧ ¬ b.genesis = true := by
    rw [hprev, hgen]; simp
  simp only [receiveBlock, if_neg h1, if_neg h2, if_pos h3, hpend, Option.isNone_none,
    if_true, Option.getD_none, List.not_mem_nil, if_false, List.nil_append]

theorem receiveBlock_orphan_later (ext : BlockExt) (fuel : Nat) (s : ClientState) (b : Block)
    (stuck : List Block)
    (hid : (s.blocks.lookup b.id).isSome = false)
    (hproof : b.validProof = true)
    (hprev : s.blocks.lookup b.prevBlockHash = none)
    (hgen : b.genesis = false)
    (hpend : s.pendingBlocks.lookup b.prevBlockHash = some stuck) :
    receiveBlock ext (fuel + 1) s b
      = ({ s with
            pendingBlocks := mapSet b.prevBlockHash
              (if b ∈ stuck then stuck else stuck ++ [b]) s.pendingBlocks }, none) := by
  have h1 : ¬ ((s.blocks.lookup b.id).isSome = true) := by rw [hid]; simp
  have h2 : ¬ (¬ b.validProof = true ∧ ¬ b.genesis = true) := by rw [hproof]; simp
  have h3 : (s.blocks.lookup b.prevBlockHash).isNone = true ∧ ¬ b.genesis = true := by
    rw [hprev, hgen]; simp
  simp only [receiveBlock, if_neg h1, if_neg h2, if_pos h3, hpend, Option.isNone_some,
    Bool.false_eq_true, if_false, Option.getD_some]

theorem receiveBlock_reject_rerun (ext : BlockExt) (fuel : Nat) (s : ClientState) (b p : Block)
    (hid : (s.blocks.lookup b.id).isSome = false)
    (hproof : b.validProof = true)
    (hprev : s.blocks.lookup b.prevBlockHash = some p)
    (hgen : b.genesis = false)
    (hrerun : ext.rerun b p = false) :
    receiveBlock ext (fuel + 1) s b = (s, none) := by
  have h1 : ¬ ((s.blocks.lookup b.id).isSome = true) := by rw [hid]; simp
  have h2 : ¬ (¬ b.validProof = true ∧ ¬ b.genesis = true) := by rw [hproof]; simp
  have h3 : ¬ ((s.blocks.lookup b.prevBlockHash).isNone = true ∧ ¬ b.genesis = true) := by
    rw [hprev]; simp
  have h4 : ¬ b.genesis = true ∧ ¬ ext.rerun b ((s.blocks.lookup b.prevBlockHash).getD b)
      = true := by
    rw [hprev, hgen, Option.getD_some, hrerun]; simp
  simp only [receiveBlock, if_neg h1, if_neg h2, if_neg h3, if_pos h4]

theorem receiveBlock_accept_adopt (ext : BlockExt) (fuel : Nat) (s : ClientState) (b p : Block)
    (hid : (s.blocks.lookup b.id).isSome = false)
    (hproof : b.validProof = true)
    (hprev : s.blocks.lookup b.prevBlockHash = some p)
    (_hgen : b.genesis = false)
    (hrerun : ext.rerun b p = true)
    (hpend : s.pendingBlocks.lookup b.id = none)
    (hlt : s.lastBlock.chainLength < b.chainLength) :
    receiveBlock ext (fuel + 1) s b
      = ({ setLastConfirmed ext
            { s with blocks := mapSet b.id b s.blocks, lastBlock := b } with
            pendingBlocks := mapDelete b.id s.pendingBlocks }, some b) := by
  have h1 : ¬ ((s.blocks.lookup b.id).isSome = true) := by rw [hid]; simp
  have h2 : ¬ (¬ b.validProof = true ∧ ¬ b.genesis = true) := by rw [hproof]; simp
  have h3 : ¬ ((s.blocks.lookup b.prevBlockHash).isNone = true ∧ ¬ b.genesis = true) := by
    rw [hprev]; simp
  have h4 : ¬ (¬ b.genesis = true ∧ ¬ ext.rerun b ((s.blocks.lookup b.prevBlockHash).getD b)
      = true) := by
    rw [hprev, Option.getD_some, hrerun]; simp
  have h5 : ({ s with blocks := mapSet b.id b s.blocks } : ClientState).lastBlock.chainLength
      < b.chainLength := hlt
  simp only [receiveBlock, if_neg h1, if_neg h2, if_neg h3, if_neg h4, if_pos h5]
  have h6 : (setLastConfirmed ext
      { s with blocks := mapSet b.id b s.blocks, lastBlock := b }).pendingBlocks
      = s.pendingBlocks := rfl
  rw [h6, hpend, Option.getD_none, List.foldl_nil]

theorem receiveBlock_accept_keep (ext : BlockExt) (fuel : Nat) (s : ClientState) (b p : Block)
    (hid : (s.blocks.lookup b.id).isSome = false)
    (hproof : b.validProof = true)
    (hprev : s.blocks.lookup b.prevBlockHash = some p)
    (_hgen : b.genesis = false)
    (hrerun : ext.rerun b p = true)
    (hpend : s.pendingBlocks.lookup b.id = none)
    (hge : ¬ s.lastBlock.chainLength < b.chainLength) :
    receiveBlock ext (fuel + 1) s b
      = ({ s with
            blocks := mapSet b.id b s.blocks,
            pendingBlocks := mapDelete b.id s.pendingBlocks }, some b) := by
  have h1 : ¬ ((s.blocks.lookup b.id).isSome = true) := by rw [hid]; simp
  have h2 : ¬ (¬ b.validProof = true ∧ ¬ b.genesis = true) := by rw [hproof]; simp
  have h3 : ¬ ((s.blocks.lookup b.prevBlockHash).isNone = true ∧ ¬ b.genesis = true) := by
    rw [hprev]; simp
  have h4 : ¬ (¬ b.genesis = true ∧ ¬ ext.rerun b ((s.blocks.lookup b.prevBlockHash).getD b)
      = true) := by
    rw [hprev, Option.getD_some, hrerun]; simp
  have h5 : ¬ ({ s with blocks := mapSet b.id b s.blocks } : ClientState).lastBlock.chainLength
      < b.chainLength := hge
  simp only [receiveBlock, if_neg h1, if_neg h2, if_neg h3, if_neg h4, if_neg h5]
  have h6 : ({ s with blocks := mapSet b.id b s.blocks } : ClientState).pendingBlocks
      = s.pendingBlocks := rfl
  rw [h6, hpend, Option.getD_none, List.foldl_nil]

theorem headR_trans (s t u : ClientState)
    (h1 : t.lastBlock = s.lastBlock ∨ s.lastBlock.chainLength < t.lastBlock.chainLength)
    (h2 : u.lastBlock = t.lastBlock ∨ t.lastBlock.chainLength < u.lastBlock.chainLength) :
    u.lastBlock = s.lastBlock ∨ s.lastBlock.chainLength < u.lastBlock.chainLength := by
  rcases h1 with h1 | h1 <;> rcases h2 with h2 | h2
  · left; rw [h2, h1]
  · right; rwa [h1] at h2
  · right; rwa [h2]
  · right; exact lt_trans h1 h2

theorem headR_foldl (ext : BlockExt) (fuel : Nat) :
    ∀ (l : List Block) (s : ClientState),
      (∀ (st : ClientState) (ub : Block),
        (receiveBlock ext fuel st ub).1.lastBlock = st.lastBlock ∨
          st.lastBlock.chainLength < (receiveBlock ext fuel st ub).1.lastBlock.chainLength) →
      ((l.foldl (fun st ub => (receiveBlock ext fuel st ub).1) s).lastBlock = s.lastBlock ∨
        s.lastBlock.chainLength
          < (l.foldl (fun st ub => (receiveBlock ext fuel st ub).1) s).lastBlock.chainLength) := by
  intro l
  induction l with
  | nil => intro s _; left; rfl
  | cons ub rest ih =>
    intro s hstep
    rw [List.foldl_cons]
    exact headR_trans s _ _ (hstep s ub) (ih _ hstep)

theorem receiveBlock_lastBlock (ext : BlockExt) : ∀ (fuel : Nat) (s : ClientState) (b : Block),
    (receiveBlock ext fuel s b).1.lastBlock = s.lastBlock ∨
    s.lastBlock.chainLength < (receiveBlock ext fuel s b).1.lastBlock.chainLength := by
  intro fuel
  induction fuel with
  | zero => intro s b; left; rfl
  | succ fuel ih =>
    intro s b
    simp only [receiveBlock]
    split
    · left; rfl
    · split
      · left; rfl
      · split
        · left
          split <;> rfl
        · split
          · left; rfl
          · refine headR_trans s _ _ ?_ (headR_foldl ext fuel _ _ (fun st ub => ih st ub))
            split
            · next hc => right; exact hc
            · left; rfl

theorem foldl_blocks_mono (ext : BlockExt) (fuel : Nat) :
    ∀ (l : List Block) (s : ClientState) (k : Nat),
      (∀ (st : ClientState) (ub : Block), (st.blocks.lookup k).isSome = true →
        ((receiveBlock ext fuel st ub).1.blocks.lookup k).isSome = true) →
      (s.blocks.lookup k).isSome = true →
      ((l.foldl (fun st ub => (receiveBlock ext fuel st ub).1) s).blocks.lookup k).isSome
        = true := by
  intro l
  induction l with
  | nil => intro s k _ h; exact h
  | cons ub rest ih =>
    intro s k hstep h
    rw [List.foldl_cons]
    exact ih _ k hstep (hstep s ub h)

theorem receiveBlock_blocks_mono (ext : BlockExt) :
    ∀ (fuel : Nat) (s : ClientState) (b : Block) (k : Nat),
      (s.blocks.lookup k).isSome = true →
      ((receiveBlock ext fuel s b).1.blocks.lookup k).isSome = true := by
  intro fuel
  induction fuel with
  | zero => intro s b k h; exact h
  | succ fuel ih =>
    intro s b k h
    simp only [receiveBlock]
    split
    · exact h
    · split
      · exact h
      · split
        · split <;> exact h
        · split
          · exact h
          · apply foldl_blocks_mono ext fuel _ _ k (fun st ub hh => ih st ub k hh)
            split
            · show ((mapSet b.id b s.blocks).lookup k).isSome = true
              by_cases hk : k = b.id
              · subst hk; rw [lookup_mapSet_self]; rfl
              · rw [lookup_mapSet_ne k b.id b hk]; exact h
            · show ((mapSet b.id b s.blocks).lookup k).isSome = true
              by_cases hk : k = b.id
              · subst hk; rw [lookup_mapSet_self]; rfl
              · rw [lookup_mapSet_ne k b.id b hk]; exact h

theorem receiveBlock_adopt_head (ext : BlockExt) (fuel : Nat) (s : ClientState) (b p : Block)
    (hid : (s.blocks.lookup b.id).isSome = false)
    (hproof : b.validProof = true)
    (hprev : s.blocks.lookup b.prevBlockHash = some p)
    (hgen : b.genesis = false)
    (hrerun : ext.rerun b p = true)
    (hpend : s.pendingBlocks.lookup b.id = none)
    (hlt : s.lastBlock.chainLength < b.chainLength) :
    (receiveBlock ext (fuel + 1) s b).1.lastBlock = b := by
  rw [receiveBlock_accept_adopt ext fuel s b p hid hproof hprev hgen hrerun hpend hlt]
  rfl

theorem receiveBlock_keep_head (ext : BlockExt) (fuel : Nat) (s : ClientState) (b p : Block)
    (hid : (s.blocks.lookup b.id).isSome = false)
    (hproof : b.validProof = true)
    (hprev : s.blocks.lookup b.prevBlockHash = some p)
    (hgen : b.genesis = false)
    (hrerun : ext.rerun b p = true)
    (hpend : s.pendingBlocks.lookup b.id = none)
    (hge : ¬ s.lastBlock.chainLength < b.chainLength) :
    (receiveBlock ext (fuel + 1) s b).1.lastBlock = s.lastBlock := by
  rw [receiveBlock_accept_keep ext fuel s b p hid hproof hprev hgen hrerun hpend hge]

theorem receiveBlock_accept_fields (ext : BlockExt) (fuel : Nat) (s : ClientState) (b p : Block)
    (hid : (s.blocks.lookup b.id).isSome = false)
    (hproof : b.validProof = true)
    (hprev : s.blocks.lookup b.prevBlockHash = some p)
    (hgen : b.genesis = false)
    (hrerun : ext.rerun b p = true)
    (hpend : s.pendingBlocks.lookup b.id = none) :
    (receiveBlock ext (fuel + 1) s b).1.blocks = mapSet b.id b s.blocks ∧
    (receiveBlock ext (fuel + 1) s b).1.pendingBlocks = mapDelete b.id s.pendingBlocks := by
  by_cases hlt : s.lastBlock.chainLength < b.chainLength
  · rw [receiveBlock_accept_adopt ext fuel s b p hid hproof hprev hgen hrerun hpend hlt]
    exact ⟨rfl, rfl⟩
  · rw [receiveBlock_accept_keep ext fuel s b p hid hproof hprev hgen hrerun hpend hlt]
    exact ⟨rfl, rfl⟩

theorem receiveBlock_accept_head (ext : BlockExt) (fuel : Nat) (s : ClientState) (b p : Block)
    (hid : (s.blocks.lookup b.id).isSome = false)
    (hproof : b.validProof = true)
    (hprev : s.blocks.lookup b.prevBlockHash = some p)
    (hgen : b.genesis = false)
    (hrerun : ext.rerun b p = true)
    (hpend : s.pendingBlocks.lookup b.id = none) :
    (receiveBlock ext (fuel + 1) s b).1.lastBlock
      = (if s.lastBlock.chainLength < b.chainLength then b else s.lastBlock) := by
  by_cases hlt : s.lastBlock.chainLength < b.chainLength
  · rw [if_pos hlt]
    exact receiveBlock_adopt_head ext fuel s b p hid hproof hprev hgen hrerun hpend hlt
  · rw [if_neg hlt]
    exact receiveBlock_keep_head ext fuel s b p hid hproof hprev hgen hrerun hpend hlt

/-- **C6.**  Longest-chain adoption in `receiveBlock`.  First conjunct:
after any `receiveBlock` call, the head (`lastBlock`) either is unchanged
or has strictly greater `chainLength` than before — an accepted block
becomes the new head only under the strict comparison
`this.lastBlock.chainLength < block.chainLength`, so a block of equal
chain length never displaces the existing head.  Second conjunct: for two
competing validated blocks `b1`, `b2` sharing the parent `p`, with
`b1.chainLength < b2.chainLength` and the current head shorter than `b2`,
delivering them in either order leaves `b2` as the head. -/
theorem c6_longest_chain_adoption :
    (∀ (ext : BlockExt) (fuel : Nat) (s : ClientState) (b : Block),
      (receiveBlock ext fuel s b).1.lastBlock = s.lastBlock ∨
      s.lastBlock.chainLength < (receiveBlock ext fuel s b).1.lastBlock.chainLength) ∧
    (∀ (ext : BlockExt) (f1 f2 : Nat) (s : ClientState) (p b1 b2 : Block),
      s.blocks.lookup b1.id = none → s.blocks.lookup b2.id = none →
      b1.id ≠ b2.id → b2.prevBlockHash ≠ b1.id → b1.prevBlockHash ≠ b2.id →
      b1.genesis = false → b2.genesis = false →
      b1.validProof = true → b2.validProof = true →
      s.blocks.lookup b1.prevBlockHash = some p →
      s.blocks.lookup b2.prevBlockHash = some p →
      ext.rerun b1 p = true → ext.rerun b2 p = true →
      s.pendingBlocks.lookup b1.id = none → s.pendingBlocks.lookup b2.id = none →
      b1.chainLength < b2.chainLength → s.lastBlock.chainLength < b2.chainLength →
      (receiveBlock ext (f2 + 1) (receiveBlock ext (f1 + 1) s b1).1 b2).1.lastBlock = b2 ∧
      (receiveBlock ext (f2 + 1) (receiveBlock ext (f1 + 1) s b2).1 b1).1.lastBlock = b2) := by
  constructor
  · exact fun ext fuel s b => receiveBlock_lastBlock ext fuel s b
  · intro ext f1 f2 s p b1 b2 hid1 hid2 hne hpb2 hpb1 hg1 hg2 hv1 hv2 hprev1 hprev2
      hr1 hr2 hpend1 hpend2 hlen hlen0
    have hid1f : (s.blocks.lookup b1.id).isSome = false := by rw [hid1]; rfl
    have hid2f : (s.blocks.lookup b2.id).isSome = false := by rw [hid2]; rfl
    constructor
    · -- b1 first, then b2
      obtain ⟨hbf, hpf⟩ := receiveBlock_accept_fields ext f1 s b1 p hid1f hv1 hprev1 hg1
        hr1 hpend1
      have hhead := receiveBlock_accept_head ext f1 s b1 p hid1f hv1 hprev1 hg1 hr1 hpend1
      apply receiveBlock_adopt_head ext f2 _ b2 p
      · rw [hbf, lookup_mapSet_ne b2.id b1.id b1 (Ne.symm hne), hid2]
        rfl
      · exact hv2
      · rw [hbf, lookup_mapSet_ne b2.prevBlockHash b1.id b1 hpb2, hprev2]
      · exact hg2
      · exact hr2
      · rw [hpf, lookup_mapDelete_ne b2.id b1.id (Ne.symm hne), hpend2]
      · rw [hhead]
        split <;> assumption
    · -- b2 first, then b1
      obtain ⟨hbf, hpf⟩ := receiveBlock_accept_fields ext f1 s b2 p hid2f hv2 hprev2 hg2
        hr2 hpend2
      have hhead := receiveBlock_adopt_head ext f1 s b2 p hid2f hv2 hprev2 hg2 hr2
        hpend2 hlen0
      rw [receiveBlock_keep_head ext f2 _ b1 p ?_ hv1 ?_ hg1 hr1 ?_ ?_]
      · exact hhead
      · rw [hbf, lookup_mapSet_ne b1.id b2.id b2 hne, hid1]
        rfl
      · rw [hbf, lookup_mapSet_ne b1.prevBlockHash b2.id b2 hpb1, hprev1]
      · rw [hpf, lookup_mapDelete_ne b1.id b2.id hne, hpend1]
      · rw [hhead]
        omega

/-- Witness for `c6_longest_chain_adoption`: the concrete genesis-only
state `state0` and the two competing children `blockB1` (length 1) and
`blockB2` (length 2); after receiving both, in either order, the head is
`blockB2`. -/
theorem c6_longest_chain_adoption_witness :
    (receiveBlock extTriv 1 (receiveBlock extTriv 1 state0 blockB1).1 blockB2).1.lastBlock
        = blockB2 ∧
    (receiveBlock extTriv 1 (receiveBlock extTriv 1 state0 blockB2).1 blockB1).1.lastBlock
        = blockB2 :=
  c6_longest_chain_adoption.2 extTriv 0 0 state0 genesisB blockB1 blockB2
    (by decide) (by decide) (by decide) (by decide) (by decide) (by decide) (by decide)
    (by decide) (by decide) (by decide) (by decide) rfl rfl
    (by decide) (by decide) (by decide) (by decide)

theorem mapSet_lookup_eq_self {β : Type} (k : Nat) (v : β) :
    ∀ (l : List (Nat × β)), l.lookup k = some v → mapSet k v l = l := by
  intro l
  induction l with
  | nil => intro h; exact absurd h (by simp [List.lookup])
  | cons p rest ih =>
    obtain ⟨kk, vv⟩ := p
    intro h
    by_cases hk : k = kk
    · subst hk
      have : vv = v := by simpa [List.lookup] using h
      subst this
      simp [mapSet]
    · have hbeq : (k == kk) = false := beq_eq_false_iff_ne.mpr hk
      simp only [List.lookup, hbeq] at h
      simp only [mapSet, if_neg hk, ih h]

theorem receiveBlock_orphan_noop (ext : BlockExt) (g : Nat) (s : ClientState) (b : Block)
    (stuck : List Block)
    (hid : (s.blocks.lookup b.id).isSome = false)
    (hproof : b.validProof = true)
    (hprev : s.blocks.lookup b.prevBlockHash = none)
    (hgen : b.genesis = false)
    (hpend : s.pendingBlocks.lookup b.prevBlockHash = some stuck)
    (hmem : b ∈ stuck) :
    (receiveBlock ext g s b).1 = s := by
  cases g with
  | zero => rfl
  | succ g =>
    rw [receiveBlock_orphan_later ext g s b stuck hid hproof hprev hgen hpend]
    dsimp only
    rw [if_pos hmem, mapSet_lookup_eq_self b.prevBlockHash stuck s.pendingBlocks hpend]

/-- **C7.**  `receiveBlock` is idempotent with respect to block id.  First
conjunct: delivering a block whose id is already present in `blocks` is a
no-op, returning `null` and leaving the state untouched.  Second
conjunct: delivering the same block twice (with any amounts of fuel, the
first delivery having at least one step) leaves exactly the state of the
single delivery — the block was either stored (so the second delivery
hits the no-op), rejected deterministically again, or, for an orphan,
re-adding it to the pending set it already belongs to changes nothing. -/
theorem c7_receiveBlock_idempotent :
    (∀ (ext : BlockExt) (fuel : Nat) (s : ClientState) (b : Block),
      (s.blocks.lookup b.id).isSome = true → receiveBlock ext fuel s b = (s, none)) ∧
    (∀ (ext : BlockExt) (f g : Nat) (s : ClientState) (b : Block),
      (receiveBlock ext g (receiveBlock ext (f + 1) s b).1 b).1
        = (receiveBlock ext (f + 1) s b).1) := by
  constructor
  · exact fun ext fuel s b h => receiveBlock_seen ext fuel s b h
  · intro ext f g s b
    by_cases hid : (s.blocks.lookup b.id).isSome = true
    · rw [receiveBlock_seen ext (f + 1) s b hid]
      show (receiveBlock ext g s b).1 = s
      rw [receiveBlock_seen ext g s b hid]
    · have hidf : (s.blocks.lookup b.id).isSome = false := by
        cases hh : (s.blocks.lookup b.id).isSome
        · rfl
        · exact absurd hh hid
      by_cases hb2 : b.validProof = false ∧ b.genesis = false
      · rw [receiveBlock_reject_proof ext f s b hidf hb2.1 hb2.2]
        show (receiveBlock ext g s b).1 = s
        cases g with
        | zero => rfl
        | succ g => rw [receiveBlock_reject_proof ext g s b hidf hb2.1 hb2.2]
      · by_cases horph : s.blocks.lookup b.prevBlockHash = none ∧ b.genesis = false
        · obtain ⟨hprevN, hgenF⟩ := horph
          have hproof : b.validProof = true := by
            cases hv : b.validProof
            · exact absurd ⟨hv, hgenF⟩ hb2
            · rfl
          by_cases hpend : s.pendingBlocks.lookup b.prevBlockHash = none
          · rw [receiveBlock_orphan_first ext f s b hidf hproof hprevN hgenF hpend]
            dsimp only
            exact receiveBlock_orphan_noop ext g _ b [b] hidf hproof hprevN hgenF
              (lookup_mapSet_self b.prevBlockHash [b] s.pendingBlocks)
              (List.mem_cons_self b [])
          · cases hpendS : s.pendingBlocks.lookup b.prevBlockHash with
            | none => exact absurd hpendS hpend
            | some stuck =>
              rw [receiveBlock_orphan_later ext f s b stuck hidf hproof hprevN hgenF hpendS]
              dsimp only
              refine receiveBlock_orphan_noop ext g _ b
                (if b ∈ stuck then stuck else stuck ++ [b]) hidf hproof hprevN hgenF
                (lookup_mapSet_self b.prevBlockHash _ s.pendingBlocks) ?_
              by_cases hm : b ∈ stuck
              · rw [if_pos hm]; exact hm
              · rw [if_neg hm]
                exact List.mem_append.mpr (Or.inr (List.mem_cons_self b []))
        · by_cases hb4 : b.genesis = false
            ∧ ext.rerun b ((s.blocks.lookup b.prevBlockHash).getD b) = false
          · have hproof : b.validProof = true := by
              cases hv : b.validProof
              · exact absurd ⟨hv, hb4.1⟩ hb2
              · rfl
            cases hp : s.blocks.lookup b.prevBlockHash with
            | none => exact absurd ⟨hp, hb4.1⟩ horph
            | some p =>
              have hrr : ext.rerun b p = false := by
                have := hb4.2
                rw [hp, Option.getD_some] at this
                exact this
              rw [receiveBlock_reject_rerun ext f s b p hidf hproof hp hb4.1 hrr]
              show (receiveBlock ext g s b).1 = s
              cases g with
              | zero => rfl
              | succ g => rw [receiveBlock_reject_rerun ext g s b p hidf hproof hp hb4.1 hrr]
          · have hstored : ((receiveBlock ext (f + 1) s b).1.blocks.lookup b.id).isSome
                = true := by
              have n1 : ¬ ((s.blocks.lookup b.id).isSome = true) := by rw [hidf]; simp
              have n2 : ¬ (¬ b.validProof = true ∧ ¬ b.genesis = true) := by
                simp only [Bool.not_eq_true]
                exact hb2
              have n3 : ¬ ((s.blocks.lookup b.prevBlockHash).isNone = true
                  ∧ ¬ b.genesis = true) := by
                simp only [Bool.not_eq_true, Option.isNone_iff_eq_none]
                exact horph
              have n4 : ¬ (¬ b.genesis = true
                  ∧ ¬ ext.rerun b ((s.blocks.lookup b.prevBlockHash).getD b) = true) := by
                simp only [Bool.not_eq_true]
                exact hb4
              simp only [receiveBlock, if_neg n1, if_neg n2, if_neg n3, if_neg n4]
              apply foldl_blocks_mono ext f _ _ b.id
                (fun st ub hh => receiveBlock_blocks_mono ext f st ub b.id hh)
              split
              · show ((mapSet b.id b s.blocks).lookup b.id).isSome = true
                rw [lookup_mapSet_self]
                rfl
              · show ((mapSet b.id b s.blocks).lookup b.id).isSome = true
                rw [lookup_mapSet_self]
                rfl
            cases g with
            | zero => rfl
            | succ g =>
              rw [receiveBlock_seen ext (g + 1) (receiveBlock ext (f + 1) s b).1 b hstored]

/-- Witness for `c7_receiveBlock_idempotent`: redelivering the already
known genesis block to `state0` is a no-op, and delivering `blockB1`
twice equals delivering it once. -/
theorem c7_receiveBlock_idempotent_witness :
    (state0.blocks.lookup genesisB.id).isSome = true ∧
    receiveBlock extTriv 1 state0 genesisB = (state0, none) ∧
    (receiveBlock extTriv 1 (receiveBlock extTriv 1 state0 blockB1).1 blockB1).1
      = (receiveBlock extTriv 1 state0 blockB1).1 :=
  ⟨by decide, c7_receiveBlock_idempotent.1 extTriv 1 state0 genesisB (by decide),
   c7_receiveBlock_idempotent.2 extTriv 0 1 state0 blockB1⟩

/-! ## Theorems: the wallet (`postTransaction`, `recoverFunds`) -/

/-- **C8.**  When the requested spend total (sum of the output amounts
plus the fee) exceeds the wallet's confirmed balance,
`postTransaction` throws `"Not enough money!"` before mutating anything
or broadcasting: the call returns the state unchanged — same wallet slot
sequence, same `pendingOutgoingTransactions`, same outbox — with no
transaction. -/
theorem c8_postTransaction_insufficient (bal : Nat → Nat) (ks : Nat → KeyPair)
    (calcAddr : Nat → Nat) (hashTx : IdPayload → Nat) (sg : Nat → Nat → Nat)
    (s : ClientState) (outputs : List Output) (fee : Nat)
    (h : getConfirmedBalance bal s.wallet
      < outputs.foldl (fun acc o => acc + o.amount) 0 + fee) :
    postTransaction bal ks calcAddr hashTx sg s outputs fee = (s, none) := by
  simp only [postTransaction, if_pos h]

/-- Witness for `c8_postTransaction_insufficient`: a wallet holding a
single slot worth 10 cannot pay an output of 100 plus fee 1. -/
theorem c8_postTransaction_insufficient_witness :
    getConfirmedBalance (fun _ => 10) walletState0.wallet
        < ([⟨100, 7⟩] : List Output).foldl (fun acc o => acc + o.amount) 0 + 1 ∧
    postTransaction (fun _ => 10) (fun _ => ⟨1, 2⟩) (fun k => k) (fun _ => 0) (fun _ _ => 0)
        walletState0 [⟨100, 7⟩] 1 = (walletState0, none) :=
  ⟨by decide,
   c8_postTransaction_insufficient (fun _ => 10) (fun _ => ⟨1, 2⟩) (fun k => k) (fun _ => 0)
     (fun _ _ => 0) walletState0 [⟨100, 7⟩] 1 (by decide)⟩

/-- **C9, demonstration of the defect.**  The very first confirmed-balance
query `recoverFunds` performs is the loop guard's
`this.lastConfirmedBlock.balanceOf(checkAddress)` evaluated while
`checkAddress` is still `undefined` (`none`), before any probe address
has been generated from the key stream: for every balance table, key
stream, state, `maxAttempts` and (positive) fuel, the head of the
recorded query trace is `some none` — a query on the undefined
address. -/
theorem c9_recoverFunds_first_query_undefined (balU : Option Nat → Nat)
    (ks : Nat → KeyPair) (calcAddr : Nat → Nat) (fuel : Nat) (s : ClientState)
    (maxAttempts : Nat) :
    (recoverFunds balU ks calcAddr (fuel + 1) s maxAttempts).2.head? = some none := by
  simp only [recoverFunds, recoverFundsLoop]
  split
  · split <;> rfl
  · rfl
